import Mathlib

/-!
Verification of the LearnedIndexPapers browsing front-end (docs/app.js) and of
the override/aggregation contract described in the repository documentation.
Strings are modelled as `List Char`; JavaScript objects are modelled as
structures with `Option` fields for possibly-missing properties.
-/

namespace LIP

/-- Model of the JavaScript whitespace class used by the regexes in
`normalizeVenueName` and by `String.prototype.trim` (the common whitespace
characters). -/
def isWS (c : Char) : Bool :=
  c == ' ' || c == '\t' || c == '\n' || c == '\r' || c == '\x0b' || c == '\x0c' || c == ' '

lemma isWS_not_digit {c : Char} (h : isWS c = true) : c.isDigit = false := by
  simp only [isWS, Bool.or_eq_true, beq_iff_eq] at h
  rcases h with (((((h | h) | h) | h) | h) | h) | h <;> subst h <;> decide

lemma isWS_space : isWS ' ' = true := by decide

/-- Number of leading decimal-digit characters. -/
def leadingDigits : List Char → Nat
  | [] => 0
  | c :: cs => if c.isDigit then leadingDigits cs + 1 else 0

/-- `true` when the list contains four consecutive decimal digits somewhere
(the shape of an embedded four-digit year). -/
def hasRun4 : List Char → Bool
  | [] => false
  | c :: cs => decide (4 ≤ leadingDigits (c :: cs)) || hasRun4 cs

lemma leadingDigits_le_length (l : List Char) : leadingDigits l ≤ l.length := by
  induction l with
  | nil => simp [leadingDigits]
  | cons c cs ih =>
    simp only [leadingDigits, List.length_cons]
    split <;> omega

lemma hasRun4_short {l : List Char} (h : l.length ≤ 3) : hasRun4 l = false := by
  induction l with
  | nil => rfl
  | cons c cs ih =>
    simp only [hasRun4, Bool.or_eq_false_iff, decide_eq_false_iff_not]
    constructor
    · have := leadingDigits_le_length (c :: cs)
      omega
    · exact ih (by simp at h ⊢; omega)

lemma hasRun4_cons_false {c : Char} {cs : List Char} :
    hasRun4 (c :: cs) = false ↔ leadingDigits (c :: cs) ≤ 3 ∧ hasRun4 cs = false := by
  simp only [hasRun4, Bool.or_eq_false_iff, decide_eq_false_iff_not]
  constructor <;> rintro ⟨h1, h2⟩ <;> exact ⟨by omega, h2⟩

/-- Model of the step `.replace(/\d{4}/g, '')` of `normalizeVenueName`
(docs/app.js line 169): if the list starts with four digits they are
consumed, returning the remainder. -/
def takeDigits4 : List Char → Option (List Char)
  | a :: b :: c :: d :: rest =>
    if a.isDigit && b.isDigit && c.isDigit && d.isDigit then some rest else none
  | _ => none

lemma takeDigits4_some_len {l rest : List Char} (h : takeDigits4 l = some rest) :
    rest.length + 4 = l.length := by
  match l, h with
  | a :: b :: c :: d :: r, h =>
    simp only [takeDigits4] at h
    split at h
    · cases h; simp
    · exact absurd h (by simp)

lemma takeDigits4_some_lead {l rest : List Char} (h : takeDigits4 l = some rest) :
    4 ≤ leadingDigits l := by
  match l, h with
  | a :: b :: c :: d :: r, h =>
    simp only [takeDigits4] at h
    split at h
    · rename_i hd
      simp only [Bool.and_eq_true] at hd
      obtain ⟨⟨⟨h1, h2⟩, h3⟩, h4⟩ := hd
      simp only [leadingDigits, h1, h2, h3, h4, if_true]
      omega
    · exact absurd h (by simp)

lemma takeDigits4_none_of_lead {l : List Char} (h : leadingDigits l ≤ 3) :
    takeDigits4 l = none := by
  match l with
  | [] => rfl
  | [a] => rfl
  | [a, b] => rfl
  | [a, b, c] => rfl
  | a :: b :: c :: d :: r =>
    simp only [takeDigits4]
    split
    · rename_i hd
      simp only [Bool.and_eq_true] at hd
      obtain ⟨⟨⟨h1, h2⟩, h3⟩, h4⟩ := hd
      exfalso
      simp only [leadingDigits, h1, h2, h3, h4, if_true] at h
      omega
    · rfl

/-- Model of the step `.replace(/\d{4}/g, '')` (docs/app.js line 169):
a left-to-right scan removing every non-overlapping run of four digits. -/
def stripYears : List Char → List Char
  | a :: b :: c :: d :: rest =>
    if a.isDigit && b.isDigit && c.isDigit && d.isDigit then stripYears rest
    else a :: stripYears (b :: c :: d :: rest)
  | other => other

/-- The dash or en-dash of the year-range pattern of docs/app.js line 168. -/
def isDashChar (c : Char) : Bool := c == '-' || c == '–'

/-- One match attempt of the regex `\d{4}\s*[-–]\s*\d{4}` (docs/app.js
line 168) at the head of the list, returning the remainder on success. -/
def matchYearRange (l : List Char) : Option (List Char) :=
  match takeDigits4 l with
  | none => none
  | some r1 =>
    match r1.dropWhile isWS with
    | [] => none
    | d :: r3 => if isDashChar d then takeDigits4 (r3.dropWhile isWS) else none

lemma length_dropWhile_le (p : Char → Bool) (l : List Char) :
    (l.dropWhile p).length ≤ l.length := by
  induction l with
  | nil => simp
  | cons c cs ih =>
    simp only [List.dropWhile]
    split
    · simp only [List.length_cons]
      omega
    · simp

lemma matchYearRange_some_len {l rest : List Char} (h : matchYearRange l = some rest) :
    rest.length < l.length := by
  simp only [matchYearRange] at h
  split at h
  · exact absurd h (by simp)
  · rename_i r1 h1
    have e1 := takeDigits4_some_len h1
    split at h
    · exact absurd h (by simp)
    · rename_i d r3 h2
      have e2 : r3.length + 1 ≤ r1.length := by
        have := length_dropWhile_le isWS r1
        rw [h2] at this
        simpa using this
      split at h
      · have e3 := takeDigits4_some_len h
        have e4 := length_dropWhile_le isWS r3
        omega
      · exact absurd h (by simp)

/-- Model of the step `.replace(/\d{4}\s*[-–]\s*\d{4}/g, '')` of
`normalizeVenueName` (docs/app.js line 168): left-to-right scan removing
every year range. -/
def stripYearRanges (l : List Char) : List Char :=
  match l with
  | [] => []
  | c :: cs =>
    match h : matchYearRange (c :: cs) with
    | some rest => stripYearRanges rest
    | none => c :: stripYearRanges cs
termination_by l.length
decreasing_by
  · exact matchYearRange_some_len h
  · simp

/-- The alternation `(IEEE|ACM|International|Conference|Symposium)` of the
regex on docs/app.js line 167, in source order. -/
def yearKwList : List (List Char) :=
  ["IEEE".data, "ACM".data, "International".data, "Conference".data, "Symposium".data]

/-- Case-insensitive test at the head of the list, modelling a
case-insensitive literal regex fragment matched at the current position. -/
def matchCIAt (pat l : List Char) : Bool :=
  (l.take pat.length).map Char.toLower == pat.map Char.toLower

/-- First keyword of `yearKwList` matching case-insensitively at the head of
the list, returning its length (JavaScript alternation takes the first
alternative that matches). -/
def findKw : List (List Char) → List Char → Option Nat
  | [], _ => none
  | kw :: rest, l => if matchCIAt kw l then some kw.length else findKw rest l

/-- One match attempt of the regex
`\d{4}\s+(IEEE|ACM|International|Conference|Symposium)` with the `i` flag
(docs/app.js line 167) at the head of the list.  On success it returns the
capture (the keyword as written in the input, which the replacement keeps)
and the remainder after the match. -/
def matchYearKw (l : List Char) : Option (List Char × List Char) :=
  match takeDigits4 l with
  | none => none
  | some r1 =>
    let ws := r1.takeWhile isWS
    if ws.isEmpty then none
    else
      let r2 := r1.drop ws.length
      match findKw yearKwList r2 with
      | some n => some (r2.take n, r2.drop n)
      | none => none

lemma matchYearKw_some_len {l : List Char} {kw rest : List Char}
    (h : matchYearKw l = some (kw, rest)) : rest.length < l.length := by
  simp only [matchYearKw] at h
  split at h
  · exact absurd h (by simp)
  · rename_i r1 h1
    have e1 := takeDigits4_some_len h1
    split at h
    · exact absurd h (by simp)
    · split at h
      · rename_i n hn
        simp only [Option.some.injEq, Prod.mk.injEq] at h
        rw [← h.2]
        simp only [List.length_drop]
        omega
      · exact absurd h (by simp)

/-- Model of the step
`.replace(/\d{4}\s+(IEEE|ACM|International|Conference|Symposium)/gi, '$1')`
of `normalizeVenueName` (docs/app.js line 167): left-to-right scan keeping
only the captured keyword of every match. -/
def stripYearKw (l : List Char) : List Char :=
  match l with
  | [] => []
  | c :: cs =>
    match h : matchYearKw (c :: cs) with
    | some (kw, rest) => kw ++ stripYearKw rest
    | none => c :: stripYearKw cs
termination_by l.length
decreasing_by
  · exact matchYearKw_some_len h
  · simp

/-- Model of the step `.replace(/\s+/g, ' ')` of `normalizeVenueName`
(docs/app.js line 170): every maximal run of whitespace becomes one space. -/
def collapseWS (l : List Char) : List Char :=
  match l with
  | [] => []
  | c :: cs =>
    if isWS c then ' ' :: collapseWS (cs.dropWhile isWS)
    else c :: collapseWS cs
termination_by l.length
decreasing_by
  · have := length_dropWhile_le isWS cs
    simp
    omega
  · simp

/-- Removal of trailing whitespace (the right half of `.trim()` on
docs/app.js line 171). -/
def rtrimWS : List Char → List Char
  | [] => []
  | c :: cs =>
    match rtrimWS cs with
    | [] => if isWS c then [] else [c]
    | x :: xs => c :: x :: xs

/-- Model of `.trim()` (docs/app.js line 171). -/
def trimWS (l : List Char) : List Char := rtrimWS (l.dropWhile isWS)

/-- The `normalized` component of `normalizeVenueName` (docs/app.js
lines 164-177): the four `.replace` steps followed by `.trim()`. -/
def normalizeVenue (s : List Char) : List Char :=
  trimWS (collapseWS (stripYears (stripYearRanges (stripYearKw s))))

/-- `true` when no two adjacent characters are both whitespace. -/
def noAdjWS : List Char → Bool
  | a :: b :: rest => !(isWS a && isWS b) && noAdjWS (b :: rest)
  | _ => true

/-- `true` when the first character (if any) is not whitespace. -/
def headNotWS : List Char → Bool
  | [] => true
  | c :: _ => !isWS c

/-- `true` when the last character (if any) is not whitespace. -/
def lastNotWS (l : List Char) : Bool :=
  match l.getLast? with
  | none => true
  | some c => !isWS c

/-- `true` when every whitespace character of the list is the plain space. -/
def allWSSpace (l : List Char) : Bool := l.all fun c => !isWS c || c == ' '

/-- Uppercase ASCII letter, the class `[A-Z]` of docs/app.js line 182. -/
def isUpperAZ (c : Char) : Bool := 'A' ≤ c && c ≤ 'Z'

/-- Model of `venueName.match(/\(([A-Z]{2,})\)/)` (docs/app.js line 182):
the first parenthesized run of at least two uppercase letters. -/
def parenMatch : List Char → Option (List Char)
  | [] => none
  | c :: cs =>
    if c == '(' then
      let ups := cs.takeWhile isUpperAZ
      match cs.drop ups.length with
      | ')' :: _ => if 2 ≤ ups.length then some ups else parenMatch cs
      | _ => parenMatch cs
    else parenMatch cs

def toLowerList (l : List Char) : List Char := l.map Char.toLower

def startsWithB : List Char → List Char → Bool
  | [], _ => true
  | _ :: _, [] => false
  | a :: as2, b :: bs => a == b && startsWithB as2 bs

def occursIn (pat : List Char) : List Char → Bool
  | [] => startsWithB pat []
  | c :: cs => startsWithB pat (c :: cs) || occursIn pat cs

/-- Case-insensitive substring test: `pattern.test(venueName)` for the literal
case-insensitive regexes of the table on docs/app.js lines 188-238. -/
def containsCI (pat l : List Char) : Bool :=
  occursIn (toLowerList pat) (toLowerList l)

/-- The prioritized long-name-to-abbreviation table of docs/app.js
lines 188-238, in source order. -/
def abbrevTable : List (List Char × List Char) :=
  [("Proceedings of the VLDB Endowment".data, "PVLDB".data),
   ("Proceedings of the ACM on Management of Data".data, "SIGMOD".data),
   ("Proceedings of the International Conference on Management of Data".data, "SIGMOD".data),
   ("IEEE International Conference on Data Engineering".data, "ICDE".data),
   ("Conference on Innovative Data Systems Research".data, "CIDR".data),
   ("IEEE Transactions on Knowledge and Data Engineering".data, "TKDE".data),
   ("The VLDB Journal".data, "VLDBJ".data),
   ("ACM Transactions on Storage".data, "TOS".data),
   ("Proceedings of the AAAI Conference on Artificial Intelligence".data, "AAAI".data),
   ("International Conference on Learning Representations".data, "ICLR".data),
   ("IEEE Transactions on Parallel and Distributed Systems".data, "TPDS".data),
   ("IEEE Communications Surveys & Tutorials".data, "COMST".data),
   ("ACM Computing Surveys".data, "CSUR".data),
   ("Journal of the ACM".data, "JACM".data),
   ("Communications of the ACM".data, "CACM".data),
   ("ACM Transactions on Graphics".data, "TOG".data),
   ("IEEE Transactions on Pattern Analysis and Machine Intelligence".data, "TPAMI".data),
   ("Proceedings of the ACM Web Conference".data, "WWW".data),
   ("Neural Information Processing Systems".data, "NeurIPS".data),
   ("International Conference on Machine Learning".data, "ICML".data),
   ("IEEE International Solid-State Circuits Conference".data, "ISSCC".data),
   ("International Journal of Geographical Information Science".data, "IJGIS".data),
   ("IEEE Transactions on Network and Service Management".data, "TNSM".data),
   ("Distributed and Parallel Databases".data, "DPD".data),
   ("Knowledge and Information Systems".data, "KAIS".data),
   ("The Journal of Supercomputing".data, "JSC".data),
   ("Information Processing & Management".data, "IPM".data),
   ("Data Science and Engineering".data, "DSE".data),
   ("Nucleic Acids Research".data, "NAR".data),
   ("Nature Computational Science".data, "NCS".data),
   ("Cell Genomics".data, "CG".data),
   ("Bioinformatics".data, "BIO".data),
   ("Artificial Intelligence Review".data, "AIR".data),
   ("Information Sciences".data, "IS".data),
   ("Applied Sciences".data, "AS".data),
   ("Electronics".data, "EL".data),
   ("Synthesis lectures on data management".data, "SLDM".data),
   ("Communications in computer and information science".data, "CCIS".data),
   ("Lecture notes in computer science".data, "LNCS".data),
   ("IEEE Data(base) Engineering Bulletin".data, "DEB".data),
   ("ACM SIGMOD Record".data, "SIGMOD Record".data),
   ("IEEE Access".data, "Access".data),
   ("arXiv (Cornell University)".data, "arXiv".data),
   ("bioRxiv (Cold Spring Harbor Laboratory)".data, "bioRxiv".data),
   ("Chapman and Hall/CRC eBooks".data, "CRC".data),
   ("Daedalus".data, "Daedalus".data),
   ("Computer Communications".data, "CC".data),
   ("Discrete Optimization".data, "DO".data),
   ("International Journal of Scientific Research in Science Engineering and Technology".data,
     "IJSRET".data)]

/-- The `for` loop over the table (docs/app.js lines 240-244): the first
entry whose pattern matches wins. -/
def tableScan : List (List Char × List Char) → List Char → Option (List Char)
  | [], _ => none
  | (pat, abbr) :: rest, v => if containsCI pat v then some abbr else tableScan rest v

/-- `extractAbbreviation` (docs/app.js lines 180-247): first the parenthesized
uppercase abbreviation, then the table scan, else `null`. -/
def extractAbbreviation (v : List Char) : Option (List Char) :=
  match parenMatch v with
  | some a => some a
  | none => tableScan abbrevTable v

/-- Follows the specification sentence for abbreviation resolution: the result
is the abbreviation of the earliest table entry whose pattern matches the
venue name, with no abbreviation when no entry matches. -/
def specTableResolve (v : List Char) : Option (List Char) :=
  (abbrevTable.find? fun e => containsCI e.1 v).map fun e => e.2

/-- `normalizeVenueName` (docs/app.js lines 164-177): the normalized display
name together with the abbreviation extracted from the original name. -/
def normalizeVenueName (s : List Char) : List Char × Option (List Char) :=
  (normalizeVenue s, extractAbbreviation s)

/-! The data model of a paper record as consumed by docs/app.js. -/

structure Authorship where
  name : List Char
  institutions : Option (List (List Char))
deriving DecidableEq

structure Paper where
  id : List Char
  title : Option (List Char)
  publication_year : Option Nat
  host_venue : Option (List Char)
  cited_by_count : Option Nat
  authorships : Option (List Authorship)
  tags : Option (List (List Char))
deriving DecidableEq

/-- `w.host_venue || 'Unknown'` (docs/app.js line 61; also line 617): a
missing or empty venue string is falsy and defaults to the sentinel. -/
def venueOf (w : Paper) : List Char :=
  match w.host_venue with
  | some v => if v = [] then "Unknown".data else v
  | none => "Unknown".data

/-- `w.cited_by_count || 0` (docs/app.js lines 43 and 78). -/
def citedKey (w : Paper) : Nat := w.cited_by_count.getD 0

/-- `w.publication_year || 0` (docs/app.js line 75). -/
def yearKey (w : Paper) : Nat := w.publication_year.getD 0

/-- `(w.authorships||[]).map(a=>a.name).filter(Boolean)` (docs/app.js
line 56). -/
def authorNames (w : Paper) : List (List Char) :=
  ((w.authorships.getD []).map Authorship.name).filter fun n => !n.isEmpty

/-- The citation-count line of a paper card (docs/app.js line 43). -/
def renderCardCitation (w : Paper) : List Char :=
  "被引用数: ".data ++ (Nat.repr (w.cited_by_count.getD 0)).data

/-- JavaScript `venueGroup.split('|')` (docs/app.js line 65). -/
def splitPipe : List Char → List (List Char)
  | [] => [[]]
  | c :: cs =>
    if c == '|' then [] :: splitPipe cs
    else
      match splitPipe cs with
      | h :: t => (c :: h) :: t
      | [] => [[c]]

/-- The tag condition of docs/app.js lines 52-53: every selected tag must be
present (vacuously true when the selection is empty). -/
def okTagB (selectedTags : List (List Char)) (w : Paper) : Bool :=
  selectedTags.isEmpty || selectedTags.all fun t => (w.tags.getD []).contains t

/-- The author condition of docs/app.js lines 56-58. -/
def okAuthorB (selectedAuthors : List (List Char)) (w : Paper) : Bool :=
  selectedAuthors.isEmpty || selectedAuthors.all fun a => (authorNames w).contains a

/-- The venue condition of docs/app.js lines 61-67: the paper's venue must be
a member of some selected `|`-separated group. -/
def okVenueB (selectedVenues : List (List Char)) (w : Paper) : Bool :=
  selectedVenues.isEmpty || selectedVenues.any fun g => (splitPipe g).contains (venueOf w)

def matchesFilters (ts sa sv : List (List Char)) (w : Paper) : Bool :=
  okTagB ts w && okAuthorB sa w && okVenueB sv w

/-- The comparator `(a, b) => (b.publication_year || 0) - (a.publication_year
|| 0)` of docs/app.js line 75: descending year. -/
def byYearDesc (a b : Paper) : Prop := yearKey b ≤ yearKey a

/-- The comparator of docs/app.js line 78: descending cited-by count. -/
def byCitedDesc (a b : Paper) : Prop := citedKey b ≤ citedKey a

instance : DecidableRel byYearDesc := fun a b => Nat.decLe _ _

instance : DecidableRel byCitedDesc := fun a b => Nat.decLe _ _

instance : IsTotal Paper byYearDesc := ⟨fun a b => Nat.le_total (yearKey b) (yearKey a)⟩

instance : IsTotal Paper byCitedDesc := ⟨fun a b => Nat.le_total (citedKey b) (citedKey a)⟩

instance : IsTrans Paper byYearDesc := ⟨fun _ _ _ h1 h2 => le_trans h2 h1⟩

instance : IsTrans Paper byCitedDesc := ⟨fun _ _ _ h1 h2 => le_trans h2 h1⟩

/-- `filterPapers` (docs/app.js lines 49-80): filter by the three selections,
then sort (stably) by descending year when `sortBy` is `'year'`, else by
descending cited-by count. -/
def filterPapers (papers : List Paper)
    (selectedTags selectedAuthors selectedVenues : List (List Char))
    (sortBy : List Char) : List Paper :=
  let filtered := papers.filter (matchesFilters selectedTags selectedAuthors selectedVenues)
  if sortBy = "year".data then filtered.insertionSort byYearDesc
  else filtered.insertionSort byCitedDesc

/-- JavaScript `Set` construction: deduplication keeping first occurrences. -/
def setDedup : List (List Char) → List (List Char)
  | [] => []
  | x :: xs => x :: (setDedup xs).filter fun y => !(y == x)

/-- `new Set(papers.map(p=>p.host_venue||'Unknown').filter(Boolean))`
(docs/app.js line 617). -/
def allVenues (papers : List Paper) : List (List Char) :=
  setDedup ((papers.map venueOf).filter fun v => !v.isEmpty)

/-! The institution-year computation of docs/app.js lines 434-469. -/

structure InstEntry where
  name : List Char
  yearRange : List Char
  years : List Nat
deriving DecidableEq

structure InstYearData where
  year_range : List Char
  years : List Nat
deriving DecidableEq

structure TopAuthor where
  name : List Char
  institution_years : Option (List (List Char × InstYearData))
deriving DecidableEq

structure FrontStats where
  top_authors : Option (List TopAuthor)
deriving DecidableEq

/-- Association lookup in the `institutionYears` object keyed by institution
name. -/
def lookupYears : List (List Char × List Nat) → List Char → Option (List Nat)
  | [], _ => none
  | (k, ys) :: rest, i => if k = i then some ys else lookupYears rest i

/-- `institutionYears[inst].add(year)` with object/`Set` insertion order
(docs/app.js lines 452-455): a new key is appended, a year already present is
not added again. -/
def addYear : List (List Char × List Nat) → List Char → Nat → List (List Char × List Nat)
  | [], i, y => [(i, [y])]
  | (k, ys) :: rest, i, y =>
    if k = i then (k, if y ∈ ys then ys else ys ++ [y]) :: rest
    else (k, ys) :: addYear rest i y

def addInstYears (m : List (List Char × List Nat)) (insts : List (List Char)) (y : Nat) :
    List (List Char × List Nat) :=
  insts.foldl (fun acc i => addYear acc i y) m

/-- The guard of docs/app.js line 450 and the inner loop of lines 451-456. -/
def processAuthorship (a : List Char) (y : Nat) (m : List (List Char × List Nat))
    (au : Authorship) : List (List Char × List Nat) :=
  if au.name = a then
    match au.institutions with
    | some insts => addInstYears m insts y
    | none => m
  else m

/-- One iteration of `papers.forEach` (docs/app.js lines 447-459); a falsy
(missing or zero) publication year skips the paper. -/
def processPaper (a : List Char) (m : List (List Char × List Nat)) (p : Paper) :
    List (List Char × List Nat) :=
  match p.publication_year with
  | some y => if y = 0 then m else (p.authorships.getD []).foldl (processAuthorship a y) m
  | none => m

def collectInstYears (a : List Char) (papers : List Paper) : List (List Char × List Nat) :=
  papers.foldl (processPaper a) []

/-- Lexicographic comparison of character lists, the string order used by the
default JavaScript `Array.prototype.sort` comparator. -/
def strLeB : List Char → List Char → Bool
  | [], _ => true
  | _ :: _, [] => false
  | a :: as2, b :: bs => if a = b then strLeB as2 bs else decide (a < b)

/-- `Array.from(years).sort()` (docs/app.js line 462) compares elements as
strings. -/
def jsLe (a b : Nat) : Prop := strLeB (Nat.repr a).data (Nat.repr b).data = true

instance : DecidableRel jsLe := fun _ _ => Bool.decEq _ _

def jsSortNums (l : List Nat) : List Nat := l.insertionSort jsLe

def listMin : List Nat → Nat
  | [] => 0
  | h :: t => t.foldl Nat.min h

def listMax : List Nat → Nat
  | [] => 0
  | h :: t => t.foldl Nat.max h

/-- One entry of the result of docs/app.js lines 461-468: sorted year array
and the `${min}-${max}` range string. -/
def renderEntry (pr : List Char × List Nat) : InstEntry :=
  let ya := jsSortNums pr.2
  ⟨pr.1, (Nat.repr (listMin ya)).data ++ '-' :: (Nat.repr (listMax ya)).data, ya⟩

/-- `getAuthorInstitutionsWithYears` (docs/app.js lines 434-469): the stats
entry is echoed when present, otherwise the spans are recomputed from the
papers. -/
def getAuthorInstitutionsWithYears (authorName : List Char) (papers : List Paper)
    (stats : FrontStats) : List InstEntry :=
  let topAuthor :=
    match stats.top_authors with
    | some l => l.find? fun (a : TopAuthor) => a.name == authorName
    | none => none
  match topAuthor with
  | some ta =>
    match ta.institution_years with
    | some iy =>
      iy.map fun (pr : List Char × InstYearData) => ⟨pr.1, pr.2.year_range, pr.2.years⟩
    | none => (collectInstYears authorName papers).map renderEntry
  | none => (collectInstYears authorName papers).map renderEntry

/-- `true` when `getAuthorInstitutionsWithYears` takes its fallback branch
(no usable stats entry for the author). -/
def usesFallback (stats : FrontStats) (authorName : List Char) : Bool :=
  match stats.top_authors with
  | none => true
  | some l =>
    match l.find? fun (a : TopAuthor) => a.name == authorName with
    | none => true
    | some ta => ta.institution_years.isNone

/-- The institution `inst` co-occurs with author `a` on paper `p` in (truthy)
year `y`. -/
def coOcc (a : List Char) (p : Paper) (inst : List Char) (y : Nat) : Prop :=
  p.publication_year = some y ∧ y ≠ 0 ∧
    ∃ au ∈ p.authorships.getD [], au.name = a ∧
      ∃ insts, au.institutions = some insts ∧ inst ∈ insts

def coYear (a : List Char) (papers : List Paper) (inst : List Char) (y : Nat) : Prop :=
  ∃ p ∈ papers, coOcc a p inst y

/-- Year `y` is recorded for institution `i` in the accumulated map. -/
def yearMem (m : List (List Char × List Nat)) (i : List Char) (y : Nat) : Prop :=
  ∃ ys, lookupYears m i = some ys ∧ y ∈ ys

/-- Every recorded year list is nonempty and duplicate-free. -/
def goodMap (m : List (List Char × List Nat)) : Prop :=
  ∀ i ys, lookupYears m i = some ys → ys ≠ [] ∧ ys.Nodup

def keysOf (m : List (List Char × List Nat)) : List (List Char) := m.map Prod.fst

/-! The override merger and aggregator of the ingestion pipeline.  The
pipeline scripts are not part of the checked sources, so these are modelled
from the specification. -/

/-- Modelled from the spec: one entry of the override patch file
(`scripts/fetch_and_build.py` is not among the checked sources), mapping a
work identifier to add/remove tag sets and a hidden flag. -/
structure OverrideEntry where
  add_tags : List (List Char)
  remove_tags : List (List Char)
  hidden : Bool
deriving DecidableEq

def lookupPatch : List (List Char × OverrideEntry) → List Char → Option OverrideEntry
  | [], _ => none
  | (k, e) :: rest, i => if k = i then some e else lookupPatch rest i

/-- Modelled from the spec: `tags = (classifier tags ∪ add_tags) −
remove_tags`, as set operations on duplicate-free ordered tag sequences. -/
def applyTags (tags : List (List Char)) (e : OverrideEntry) : List (List Char) :=
  (tags ++ e.add_tags.filter fun t => decide (t ∉ tags)).filter
    fun t => decide (t ∉ e.remove_tags)

/-- Modelled from the spec: the override merger
(`scripts/fetch_and_build.py` is not among the checked sources).  Hidden
works are dropped from the collection; other patched works get the tag-set
update; works absent from the patch pass through unchanged. -/
def applyOverrides (patch : List (List Char × OverrideEntry)) (works : List Paper) :
    List Paper :=
  works.filterMap fun w =>
    match lookupPatch patch w.id with
    | none => some w
    | some e =>
      if e.hidden then none
      else some { w with tags := some (applyTags (w.tags.getD []) e) }

def isHiddenB (patch : List (List Char × OverrideEntry)) (i : List Char) : Bool :=
  match lookupPatch patch i with
  | some e => e.hidden
  | none => false

def bumpCount {α : Type} [DecidableEq α] : List (α × Nat) → α → List (α × Nat)
  | [], k => [(k, 1)]
  | (k0, n) :: rest, k => if k0 = k then (k0, n + 1) :: rest else (k0, n) :: bumpCount rest k

def countBy {α : Type} [DecidableEq α] (keys : List α) : List (α × Nat) :=
  keys.foldl bumpCount []

structure StatsSnapshot where
  total_works : Nat
  citations_sum : Nat
  by_year : List (Nat × Nat)
  by_tag : List (List Char × Nat)
  by_author : List (List Char × Nat)
deriving DecidableEq

/-- Modelled from the spec: the aggregator (`scripts/fetch_and_build.py` is
not among the checked sources) — scalar totals and the per-year, per-tag and
per-author histograms of the StatsSnapshot, computed from the final work
collection (works with a missing year are excluded from the year
histogram). -/
def computeStats (works : List Paper) : StatsSnapshot :=
  { total_works := works.length
    citations_sum := (works.map citedKey).sum
    by_year := countBy (works.filterMap Paper.publication_year)
    by_tag := countBy ((works.map fun w => w.tags.getD []).join)
    by_author := countBy ((works.map authorNames).join) }

/-! Concrete sample records used to instantiate the theorems. -/

def wPaperA : Paper :=
  { id := "W1".data, title := some "Learned index survey".data,
    publication_year := some 2021, host_venue := some "VLDB".data,
    cited_by_count := some 10,
    authorships := some [⟨"A".data, some ["MIT".data]⟩], tags := some ["index".data] }

def wPaper3 : Paper :=
  { id := "W3".data, title := none, publication_year := some 2020, host_venue := none,
    cited_by_count := none, authorships := some [⟨"A".data, some ["MIT".data]⟩],
    tags := none }

def wPaperNoVenue : Paper :=
  { id := "W0".data, title := none, publication_year := none, host_venue := none,
    cited_by_count := none, authorships := none, tags := none }

def patchHideW1 : List (List Char × OverrideEntry) :=
  [("W1".data, ⟨[], [], true⟩)]

/-! Lemmas about the venue-normalization chain. -/

lemma lD_cons (c : Char) (t : List Char) :
    leadingDigits (c :: t) = if c.isDigit then leadingDigits t + 1 else 0 := rfl

lemma lD_cons_true {c : Char} (h : c.isDigit = true) (t : List Char) :
    leadingDigits (c :: t) = leadingDigits t + 1 := by
  rw [lD_cons, h]
  simp

lemma lD_cons_false {c : Char} (h : c.isDigit = false) (t : List Char) :
    leadingDigits (c :: t) = 0 := by
  rw [lD_cons, h]
  simp

lemma hasRun4_tail {c : Char} {cs : List Char} (h : hasRun4 (c :: cs) = false) :
    hasRun4 cs = false := (hasRun4_cons_false.mp h).2

lemma hasRun4_dropWhile {l : List Char} (p : Char → Bool) (h : hasRun4 l = false) :
    hasRun4 (l.dropWhile p) = false := by
  induction l with
  | nil => simpa using h
  | cons c cs ih =>
    simp only [List.dropWhile]
    split
    · exact ih (hasRun4_tail h)
    · exact h

lemma stripYears_quad (a b c d : Char) (rest : List Char) :
    stripYears (a :: b :: c :: d :: rest) =
      if a.isDigit && b.isDigit && c.isDigit && d.isDigit then stripYears rest
      else a :: stripYears (b :: c :: d :: rest) := rfl

lemma stripYears_short : ∀ l : List Char, l.length ≤ 3 → stripYears l = l := by
  intro l h
  match l with
  | [] => rfl
  | [a] => rfl
  | [a, b] => rfl
  | [a, b, c] => rfl
  | a :: b :: c :: d :: r => simp at h

lemma notQuad_length {l : List Char}
    (h : ∀ (a b c d : Char) (rest : List Char), l = a :: b :: c :: d :: rest → False) :
    l.length ≤ 3 := by
  match l with
  | [] => simp
  | [a] => simp
  | [a, b] => simp
  | [a, b, c] => simp
  | a :: b :: c :: d :: r => exact (h a b c d r rfl).elim

lemma lD_not_all {a b c d : Char} (rest : List Char)
    (ha : a.isDigit = true)
    (hd : ¬(a.isDigit && b.isDigit && c.isDigit && d.isDigit) = true) :
    leadingDigits (b :: c :: d :: rest) ≤ 2 := by
  have hbcd : b.isDigit = false ∨ c.isDigit = false ∨ d.isDigit = false := by
    cases hb : b.isDigit with
    | false => exact Or.inl rfl
    | true =>
      cases hc : c.isDigit with
      | false => exact Or.inr (Or.inl rfl)
      | true =>
        cases hdd : d.isDigit with
        | false => exact Or.inr (Or.inr rfl)
        | true => exact absurd (by simp [ha, hb, hc, hdd]) hd
  rcases hbcd with h | h | h
  · rw [lD_cons_false h]
    omega
  · rw [lD_cons, lD_cons_false h]
    split <;> omega
  · rw [lD_cons, lD_cons, lD_cons_false h]
    split
    · split <;> omega
    · omega

lemma stripYears_spec (l : List Char) :
    hasRun4 (stripYears l) = false ∧
    leadingDigits (stripYears l) ≤ leadingDigits l ∧
    leadingDigits (stripYears l) ≤ 3 := by
  induction l using stripYears.induct with
  | case1 a b c d rest hd ih =>
    obtain ⟨ih1, ih2, ih3⟩ := ih
    rw [stripYears_quad, if_pos hd]
    refine ⟨ih1, ?_, ih3⟩
    simp only [Bool.and_eq_true] at hd
    obtain ⟨⟨⟨h1, h2⟩, h3⟩, h4⟩ := hd
    rw [lD_cons_true h1, lD_cons_true h2, lD_cons_true h3, lD_cons_true h4]
    omega
  | case2 a b c d rest hd ih =>
    obtain ⟨ih1, ih2, ih3⟩ := ih
    rw [stripYears_quad, if_neg hd]
    by_cases ha : a.isDigit = true
    · have htail := lD_not_all rest ha hd
      have hX : leadingDigits (stripYears (b :: c :: d :: rest)) ≤ 2 := by omega
      refine ⟨?_, ?_, ?_⟩
      · rw [hasRun4_cons_false]
        refine ⟨?_, ih1⟩
        rw [lD_cons_true ha]
        omega
      · rw [lD_cons_true ha, lD_cons_true ha]
        omega
      · rw [lD_cons_true ha]
        omega
    · have ha' : a.isDigit = false := Bool.not_eq_true a.isDigit ▸ ha
      refine ⟨?_, ?_, ?_⟩
      · rw [hasRun4_cons_false]
        refine ⟨?_, ih1⟩
        rw [lD_cons_false ha']
        omega
      · rw [lD_cons_false ha', lD_cons_false ha']
      · rw [lD_cons_false ha']
        omega
  | case3 other hq =>
    have hlen := notQuad_length hq
    rw [stripYears_short other hlen]
    have h1 := hasRun4_short hlen
    have h2 := leadingDigits_le_length other
    exact ⟨h1, le_refl _, by omega⟩

lemma collapseWS_nil : collapseWS [] = [] := by rw [collapseWS]

lemma collapseWS_cons (c : Char) (cs : List Char) :
    collapseWS (c :: cs) =
      if isWS c then ' ' :: collapseWS (cs.dropWhile isWS) else c :: collapseWS cs := by
  rw [collapseWS]

lemma dropWhile_head_false (p : Char → Bool) (l : List Char) :
    ∀ c r, l.dropWhile p = c :: r → p c = false := by
  induction l with
  | nil => intro c r h; simp at h
  | cons a as ih =>
    intro c r h
    simp only [List.dropWhile] at h
    split at h
    · exact ih c r h
    · rename_i hp
      cases h
      simpa using hp

lemma headNotWS_dropWhile (l : List Char) : headNotWS (l.dropWhile isWS) = true := by
  cases h : l.dropWhile isWS with
  | nil => rfl
  | cons c r => simp [headNotWS, dropWhile_head_false isWS l c r h]

lemma headNotWS_collapseWS {l : List Char} (h : headNotWS l = true) :
    headNotWS (collapseWS l) = true := by
  cases l with
  | nil => rw [collapseWS_nil]; rfl
  | cons c cs =>
    simp only [headNotWS, Bool.not_eq_true'] at h
    rw [collapseWS_cons, if_neg (by simp [h])]
    simp [headNotWS, h]

lemma noAdjWS_cons_cons (a b : Char) (r : List Char) :
    noAdjWS (a :: b :: r) = (!(isWS a && isWS b) && noAdjWS (b :: r)) := rfl

lemma noAdjWS_cons_of {X : List Char} (a : Char) (h1 : noAdjWS X = true)
    (h2 : isWS a = false ∨ headNotWS X = true) : noAdjWS (a :: X) = true := by
  cases X with
  | nil => rfl
  | cons b r =>
    rw [noAdjWS_cons_cons]
    rcases h2 with h | h
    · simp [h, h1]
    · simp only [headNotWS, Bool.not_eq_true'] at h
      simp [h, h1]

lemma noAdjWS_tail {a : Char} {X : List Char} (h : noAdjWS (a :: X) = true) :
    noAdjWS X = true := by
  cases X with
  | nil => rfl
  | cons b r =>
    rw [noAdjWS_cons_cons, Bool.and_eq_true] at h
    exact h.2

lemma noAdjWS_pair {a b : Char} {r : List Char} (h : noAdjWS (a :: b :: r) = true) :
    (isWS a && isWS b) = false := by
  rw [noAdjWS_cons_cons, Bool.and_eq_true] at h
  have := h.1
  rwa [Bool.not_eq_true'] at this

lemma noAdjWS_dropWhile {l : List Char} (p : Char → Bool) (h : noAdjWS l = true) :
    noAdjWS (l.dropWhile p) = true := by
  induction l with
  | nil => simpa using h
  | cons c cs ih =>
    simp only [List.dropWhile]
    split
    · exact ih (noAdjWS_tail h)
    · exact h

lemma allWSSpace_dropWhile {l : List Char} (p : Char → Bool) (h : allWSSpace l = true) :
    allWSSpace (l.dropWhile p) = true := by
  induction l with
  | nil => simpa using h
  | cons c cs ih =>
    simp only [List.dropWhile]
    split
    · apply ih
      simp only [allWSSpace, List.all_cons, Bool.and_eq_true] at h
      exact h.2
    · exact h

lemma collapseWS_lD_hasRun4 (l : List Char) :
    leadingDigits (collapseWS l) ≤ leadingDigits l ∧
    (hasRun4 l = false → hasRun4 (collapseWS l) = false) := by
  induction l using collapseWS.induct with
  | case1 => rw [collapseWS_nil]; exact ⟨le_refl _, fun h => h⟩
  | case2 c cs hc ih =>
    rw [collapseWS_cons, if_pos hc]
    constructor
    · rw [lD_cons_false (isWS_not_digit hc), lD_cons_false (isWS_not_digit isWS_space)]
    · intro h
      rw [hasRun4_cons_false]
      constructor
      · rw [lD_cons_false (isWS_not_digit isWS_space)]
        omega
      · exact ih.2 (hasRun4_dropWhile isWS (hasRun4_tail h))
  | case3 c cs hc ih =>
    rw [collapseWS_cons, if_neg hc]
    have hle : leadingDigits (c :: collapseWS cs) ≤ leadingDigits (c :: cs) := by
      by_cases hcd : c.isDigit = true
      · rw [lD_cons_true hcd, lD_cons_true hcd]
        have := ih.1
        omega
      · have hcd' : c.isDigit = false := by simpa using hcd
        rw [lD_cons_false hcd', lD_cons_false hcd']
    refine ⟨hle, fun h => ?_⟩
    obtain ⟨h1, h2⟩ := hasRun4_cons_false.mp h
    rw [hasRun4_cons_false]
    exact ⟨by omega, ih.2 h2⟩

lemma collapseWS_allWS (l : List Char) : allWSSpace (collapseWS l) = true := by
  induction l using collapseWS.induct with
  | case1 => rw [collapseWS_nil]; rfl
  | case2 c cs hc ih =>
    rw [collapseWS_cons, if_pos hc]
    simp only [allWSSpace, List.all_cons, Bool.and_eq_true]
    exact ⟨by decide, ih⟩
  | case3 c cs hc ih =>
    rw [collapseWS_cons, if_neg hc]
    simp only [allWSSpace, List.all_cons, Bool.and_eq_true]
    refine ⟨?_, ih⟩
    simp only [Bool.or_eq_true, Bool.not_eq_true']
    exact Or.inl (by simpa using hc)

lemma collapseWS_noAdj (l : List Char) : noAdjWS (collapseWS l) = true := by
  induction l using collapseWS.induct with
  | case1 => rw [collapseWS_nil]; rfl
  | case2 c cs hc ih =>
    rw [collapseWS_cons, if_pos hc]
    exact noAdjWS_cons_of _ ih (Or.inr (headNotWS_collapseWS (headNotWS_dropWhile cs)))
  | case3 c cs hc ih =>
    rw [collapseWS_cons, if_neg hc]
    exact noAdjWS_cons_of _ ih (Or.inl (by simpa using hc))

lemma collapseWS_id (l : List Char) :
    noAdjWS l = true → allWSSpace l = true → collapseWS l = l := by
  induction l using collapseWS.induct with
  | case1 => intro _ _; rw [collapseWS_nil]
  | case2 c cs hc ih =>
    intro h1 h2
    have hc' : c = ' ' := by
      simp only [allWSSpace, List.all_cons, Bool.and_eq_true, Bool.or_eq_true,
        Bool.not_eq_true', beq_iff_eq] at h2
      rcases h2.1 with h | h
      · rw [h] at hc; cases hc
      · exact h
    have hcs : cs.dropWhile isWS = cs := by
      cases cs with
      | nil => rfl
      | cons b r =>
        have hb := noAdjWS_pair h1
        rw [hc] at hb
        simp only [Bool.true_and] at hb
        rw [List.dropWhile_cons, if_neg (by simp [hb])]
    rw [collapseWS_cons, if_pos hc, hcs, hc']
    rw [hcs] at ih
    have h2' : allWSSpace cs = true := by
      simp only [allWSSpace, List.all_cons, Bool.and_eq_true] at h2
      exact h2.2
    rw [ih (noAdjWS_tail h1) h2']
  | case3 c cs hc ih =>
    intro h1 h2
    have h2' : allWSSpace cs = true := by
      simp only [allWSSpace, List.all_cons, Bool.and_eq_true] at h2
      exact h2.2
    rw [collapseWS_cons, if_neg hc, ih (noAdjWS_tail h1) h2']

lemma rtrimWS_cons (c : Char) (cs : List Char) :
    rtrimWS (c :: cs) =
      match rtrimWS cs with
      | [] => if isWS c then [] else [c]
      | x :: xs => c :: x :: xs := rfl

lemma rtrimWS_sub {l : List Char} : ∀ x ∈ rtrimWS l, x ∈ l := by
  induction l with
  | nil => intro x hx; simp [rtrimWS] at hx
  | cons c cs ih =>
    intro x hx
    cases hcase : rtrimWS cs with
    | nil =>
      simp only [rtrimWS_cons, hcase] at hx
      split at hx
      · simp at hx
      · simp only [List.mem_singleton] at hx
        subst hx
        exact List.mem_cons_self _ _
    | cons y ys =>
      simp only [rtrimWS_cons, hcase] at hx
      rcases List.mem_cons.mp hx with h | h
      · subst h
        exact List.mem_cons_self _ _
      · rw [← hcase] at h
        exact List.mem_cons_of_mem _ (ih x h)

lemma allWSSpace_rtrim {l : List Char} (h : allWSSpace l = true) :
    allWSSpace (rtrimWS l) = true := by
  simp only [allWSSpace, List.all_eq_true] at h ⊢
  intro x hx
  exact h x (rtrimWS_sub x hx)

lemma rtrimWS_cons_shape (c : Char) (cs : List Char) :
    rtrimWS (c :: cs) = [] ∨ ∃ t, rtrimWS (c :: cs) = c :: t := by
  cases hcase : rtrimWS cs with
  | nil =>
    simp only [rtrimWS_cons, hcase]
    split
    · exact Or.inl rfl
    · exact Or.inr ⟨[], rfl⟩
  | cons y ys =>
    simp only [rtrimWS_cons, hcase]
    exact Or.inr ⟨y :: ys, rfl⟩

lemma headNotWS_rtrim {l : List Char} (h : headNotWS l = true) :
    headNotWS (rtrimWS l) = true := by
  cases l with
  | nil => exact h
  | cons c cs =>
    rcases rtrimWS_cons_shape c cs with he | ⟨t, he⟩
    · rw [he]; rfl
    · rw [he]
      simpa [headNotWS] using h

lemma noAdjWS_rtrim {l : List Char} (h : noAdjWS l = true) :
    noAdjWS (rtrimWS l) = true := by
  induction l with
  | nil => exact h
  | cons c cs ih =>
    cases hcase : rtrimWS cs with
    | nil =>
      simp only [rtrimWS_cons, hcase]
      split
      · rfl
      · rfl
    | cons y ys =>
      simp only [rtrimWS_cons, hcase]
      have h2 : noAdjWS (y :: ys) = true := by
        rw [← hcase]
        exact ih (noAdjWS_tail h)
      refine noAdjWS_cons_of _ h2 ?_
      cases cs with
      | nil => simp [rtrimWS] at hcase
      | cons b r =>
        rcases rtrimWS_cons_shape b r with he | ⟨t, he⟩
        · rw [he] at hcase; cases hcase
        · rw [he] at hcase
          injection hcase with hb ht
          have hp := noAdjWS_pair h
          cases hwc : isWS c with
          | false => exact Or.inl rfl
          | true =>
            rw [hwc, Bool.true_and] at hp
            subst hb
            exact Or.inr (by simp [headNotWS, hp])

lemma lastNotWS_rtrim (l : List Char) : lastNotWS (rtrimWS l) = true := by
  induction l with
  | nil => rfl
  | cons c cs ih =>
    cases hcase : rtrimWS cs with
    | nil =>
      simp only [rtrimWS_cons, hcase]
      split
      · rfl
      · rename_i hwc
        simp only [lastNotWS, List.getLast?_singleton]
        simpa using hwc
    | cons y ys =>
      simp only [rtrimWS_cons, hcase]
      have he : lastNotWS (c :: y :: ys) = lastNotWS (y :: ys) := by
        simp [lastNotWS, List.getLast?_cons_cons]
      rw [he, ← hcase]
      exact ih

lemma rtrim_lD (l : List Char) : leadingDigits (rtrimWS l) ≤ leadingDigits l := by
  induction l with
  | nil => simp [rtrimWS]
  | cons c cs ih =>
    cases hcase : rtrimWS cs with
    | nil =>
      simp only [rtrimWS_cons, hcase]
      split
      · simp [leadingDigits]
      · rw [lD_cons, lD_cons]
        split <;> simp [leadingDigits]
    | cons y ys =>
      simp only [rtrimWS_cons, hcase]
      rw [hcase] at ih
      by_cases hcd : c.isDigit = true
      · rw [lD_cons_true hcd, lD_cons_true hcd]
        omega
      · have hcd' : c.isDigit = false := by simpa using hcd
        rw [lD_cons_false hcd', lD_cons_false hcd']

lemma rtrim_hasRun4 {l : List Char} (h : hasRun4 l = false) :
    hasRun4 (rtrimWS l) = false := by
  induction l with
  | nil => simpa [rtrimWS] using h
  | cons c cs ih =>
    obtain ⟨h1, h2⟩ := hasRun4_cons_false.mp h
    cases hcase : rtrimWS cs with
    | nil =>
      simp only [rtrimWS_cons, hcase]
      split
      · rfl
      · exact hasRun4_short (by simp)
    | cons y ys =>
      simp only [rtrimWS_cons, hcase]
      rw [hasRun4_cons_false]
      constructor
      · have hl := rtrim_lD cs
        rw [hcase] at hl
        by_cases hcd : c.isDigit = true
        · rw [lD_cons_true hcd] at h1 ⊢
          omega
        · have hcd' : c.isDigit = false := by simpa using hcd
          rw [lD_cons_false hcd']
          omega
      · have := ih h2
        rwa [hcase] at this

lemma rtrimWS_id (l : List Char) : lastNotWS l = true → rtrimWS l = l := by
  induction l with
  | nil => intro _; rfl
  | cons c cs ih =>
    intro h
    cases cs with
    | nil =>
      simp only [lastNotWS, List.getLast?_singleton, Bool.not_eq_true'] at h
      show (if isWS c then ([] : List Char) else [c]) = [c]
      rw [if_neg (by simp [h])]
    | cons b r =>
      have h' : lastNotWS (b :: r) = true := by
        simpa [lastNotWS, List.getLast?_cons_cons] using h
      rw [rtrimWS_cons, ih h']

lemma dropWhile_id {l : List Char} (h : headNotWS l = true) : l.dropWhile isWS = l := by
  cases l with
  | nil => rfl
  | cons c cs =>
    simp only [headNotWS, Bool.not_eq_true'] at h
    rw [List.dropWhile_cons, if_neg (by simp [h])]

lemma normalizeVenue_props (s : List Char) :
    hasRun4 (normalizeVenue s) = false ∧
    noAdjWS (normalizeVenue s) = true ∧
    allWSSpace (normalizeVenue s) = true ∧
    headNotWS (normalizeVenue s) = true ∧
    lastNotWS (normalizeVenue s) = true := by
  unfold normalizeVenue trimWS
  have hrun : hasRun4 (collapseWS (stripYears (stripYearRanges (stripYearKw s)))) = false :=
    (collapseWS_lD_hasRun4 _).2 (stripYears_spec (stripYearRanges (stripYearKw s))).1
  refine ⟨?_, ?_, ?_, ?_, ?_⟩
  · exact rtrim_hasRun4 (hasRun4_dropWhile isWS hrun)
  · exact noAdjWS_rtrim (noAdjWS_dropWhile isWS (collapseWS_noAdj _))
  · exact allWSSpace_rtrim (allWSSpace_dropWhile isWS (collapseWS_allWS _))
  · exact headNotWS_rtrim (headNotWS_dropWhile _)
  · exact lastNotWS_rtrim _

lemma matchYearRange_none {l : List Char} (h : leadingDigits l ≤ 3) :
    matchYearRange l = none := by
  simp [matchYearRange, takeDigits4_none_of_lead h]

lemma matchYearKw_none {l : List Char} (h : leadingDigits l ≤ 3) :
    matchYearKw l = none := by
  simp [matchYearKw, takeDigits4_none_of_lead h]

lemma stripYearRanges_cons_none {c : Char} {cs : List Char}
    (h : matchYearRange (c :: cs) = none) :
    stripYearRanges (c :: cs) = c :: stripYearRanges cs := by
  rw [stripYearRanges]
  split
  · rename_i rest hmatch
    rw [h] at hmatch
    cases hmatch
  · rfl

lemma stripYearKw_cons_none {c : Char} {cs : List Char}
    (h : matchYearKw (c :: cs) = none) :
    stripYearKw (c :: cs) = c :: stripYearKw cs := by
  rw [stripYearKw]
  split
  · rename_i kw rest hmatch
    rw [h] at hmatch
    cases hmatch
  · rfl

lemma stripYears_id (l : List Char) : hasRun4 l = false → stripYears l = l := by
  induction l using stripYears.induct with
  | case1 a b c d rest hd ih =>
    intro h
    exfalso
    have h4 : 4 ≤ leadingDigits (a :: b :: c :: d :: rest) := by
      simp only [Bool.and_eq_true] at hd
      obtain ⟨⟨⟨h1, h2⟩, h3⟩, h4⟩ := hd
      rw [lD_cons_true h1, lD_cons_true h2, lD_cons_true h3, lD_cons_true h4]
      omega
    have := (hasRun4_cons_false.mp h).1
    omega
  | case2 a b c d rest hd ih =>
    intro h
    rw [stripYears_quad, if_neg hd, ih (hasRun4_tail h)]
  | case3 other hq =>
    intro h
    exact stripYears_short other (notQuad_length hq)

lemma stripYearRanges_id (l : List Char) : hasRun4 l = false → stripYearRanges l = l := by
  induction l using stripYearRanges.induct with
  | case1 => intro _; rw [stripYearRanges]
  | case2 c cs rest hmatch ih =>
    intro h
    have hn := matchYearRange_none (hasRun4_cons_false.mp h).1
    rw [hn] at hmatch
    cases hmatch
  | case3 c cs hmatch ih =>
    intro h
    rw [stripYearRanges_cons_none hmatch, ih (hasRun4_tail h)]

lemma stripYearKw_id (l : List Char) : hasRun4 l = false → stripYearKw l = l := by
  induction l using stripYearKw.induct with
  | case1 => intro _; rw [stripYearKw]
  | case2 c cs kw rest hmatch ih =>
    intro h
    have hn := matchYearKw_none (hasRun4_cons_false.mp h).1
    rw [hn] at hmatch
    cases hmatch
  | case3 c cs hmatch ih =>
    intro h
    rw [stripYearKw_cons_none hmatch, ih (hasRun4_tail h)]

lemma normalizeVenue_idem (s : List Char) :
    normalizeVenue (normalizeVenue s) = normalizeVenue s := by
  obtain ⟨h1, h2, h3, h4, h5⟩ := normalizeVenue_props s
  set r := normalizeVenue s with hr
  show trimWS (collapseWS (stripYears (stripYearRanges (stripYearKw r)))) = r
  rw [stripYearKw_id r h1, stripYearRanges_id r h1, stripYears_id r h1,
    collapseWS_id r h2 h3]
  unfold trimWS
  rw [dropWhile_id h4, rtrimWS_id r h5]

/-! Lemmas about abbreviation resolution. -/

lemma tableScan_eq_find (t : List (List Char × List Char)) (v : List Char) :
    tableScan t v = (t.find? fun e => containsCI e.1 v).map fun e => e.2 := by
  induction t with
  | nil => rfl
  | cons e rest ih =>
    obtain ⟨pat, abbr⟩ := e
    cases h : containsCI pat v with
    | true => simp [tableScan, List.find?, h]
    | false => simp [tableScan, List.find?, h, ih]

/-! Lemmas about the paper filter. -/

lemma okTagB_iff (ts : List (List Char)) (w : Paper) :
    okTagB ts w = true ↔ ∀ t ∈ ts, t ∈ w.tags.getD [] := by
  simp only [okTagB, Bool.or_eq_true, List.isEmpty_iff, List.all_eq_true]
  constructor
  · rintro (h | h)
    · subst h
      intro t ht
      simp at ht
    · intro t ht
      exact List.elem_iff.mp (h t ht)
  · intro h
    exact Or.inr fun t ht => List.elem_iff.mpr (h t ht)

lemma okAuthorB_iff (sa : List (List Char)) (w : Paper) :
    okAuthorB sa w = true ↔ ∀ a ∈ sa, a ∈ authorNames w := by
  simp only [okAuthorB, Bool.or_eq_true, List.isEmpty_iff, List.all_eq_true]
  constructor
  · rintro (h | h)
    · subst h
      intro a ha
      simp at ha
    · intro a ha
      exact List.elem_iff.mp (h a ha)
  · intro h
    exact Or.inr fun a ha => List.elem_iff.mpr (h a ha)

lemma okVenueB_iff (sv : List (List Char)) (w : Paper) :
    okVenueB sv w = true ↔ (sv = [] ∨ ∃ g ∈ sv, venueOf w ∈ splitPipe g) := by
  simp only [okVenueB, Bool.or_eq_true, List.isEmpty_iff, List.any_eq_true]
  constructor
  · rintro (h | ⟨g, hg, hmem⟩)
    · exact Or.inl h
    · exact Or.inr ⟨g, hg, List.elem_iff.mp hmem⟩
  · rintro (h | ⟨g, hg, hmem⟩)
    · exact Or.inl h
    · exact Or.inr ⟨g, hg, List.elem_iff.mpr hmem⟩

lemma matchesFilters_iff (ts sa sv : List (List Char)) (w : Paper) :
    matchesFilters ts sa sv w = true ↔
      (∀ t ∈ ts, t ∈ w.tags.getD []) ∧ (∀ a ∈ sa, a ∈ authorNames w) ∧
      (sv = [] ∨ ∃ g ∈ sv, venueOf w ∈ splitPipe g) := by
  simp only [matchesFilters, Bool.and_eq_true, okTagB_iff, okAuthorB_iff, okVenueB_iff,
    and_assoc]

lemma matchesFilters_empty (w : Paper) : matchesFilters [] [] [] w = true := rfl

lemma filterPapers_perm (papers : List Paper) (ts sa sv : List (List Char)) (sb : List Char) :
    (filterPapers papers ts sa sv sb).Perm (papers.filter (matchesFilters ts sa sv)) := by
  simp only [filterPapers]
  split
  · exact List.perm_insertionSort _ _
  · exact List.perm_insertionSort _ _

lemma filterPapers_mem (papers : List Paper) (ts sa sv : List (List Char)) (sb : List Char) (w : Paper) :
    w ∈ filterPapers papers ts sa sv sb ↔
      w ∈ papers ∧ matchesFilters ts sa sv w = true := by
  rw [(filterPapers_perm papers ts sa sv sb).mem_iff, List.mem_filter]

lemma filterPapers_sorted_year (papers : List Paper) (ts sa sv : List (List Char)) :
    (filterPapers papers ts sa sv "year".data).Sorted byYearDesc := by
  simp only [filterPapers, if_pos rfl]
  exact List.sorted_insertionSort _ _

lemma filterPapers_sorted_cited (papers : List Paper) (ts sa sv : List (List Char)) (sb : List Char)
    (h : sb ≠ "year".data) :
    (filterPapers papers ts sa sv sb).Sorted byCitedDesc := by
  simp only [filterPapers, if_neg h]
  exact List.sorted_insertionSort _ _

/-! Lemmas about venue defaulting. -/

lemma venueOf_default {w : Paper} (h : w.host_venue = none ∨ w.host_venue = some []) :
    venueOf w = "Unknown".data := by
  rcases h with h | h <;> simp [venueOf, h]

lemma venueOf_ne_nil (w : Paper) : venueOf w ≠ [] := by
  unfold venueOf
  split
  · split
    · simp
    · assumption
  · simp

lemma mem_setDedup {l : List (List Char)} {x : List Char} : x ∈ setDedup l ↔ x ∈ l := by
  induction l with
  | nil => simp [setDedup]
  | cons a xs ih =>
    simp only [setDedup, List.mem_cons, List.mem_filter, ih, Bool.not_eq_true',
      beq_eq_false_iff_ne, ne_eq]
    constructor
    · rintro (h | ⟨h, _⟩)
      · exact Or.inl h
      · exact Or.inr h
    · rintro (h | h)
      · exact Or.inl h
      · by_cases hx : x = a
        · exact Or.inl hx
        · exact Or.inr ⟨h, hx⟩

lemma venueOf_mem_allVenues {papers : List Paper} {w : Paper} (hw : w ∈ papers) :
    venueOf w ∈ allVenues papers := by
  rw [allVenues, mem_setDedup, List.mem_filter]
  refine ⟨List.mem_map_of_mem _ hw, ?_⟩
  simp only [Bool.not_eq_true', List.isEmpty_eq_false_iff_exists_mem]
  cases hv : venueOf w with
  | nil => exact absurd hv (venueOf_ne_nil w)
  | cons c cs => exact ⟨c, by simp⟩

/-! Lemmas about the override merger. -/

lemma mem_applyTags {tags : List (List Char)} {e : OverrideEntry} {x : List Char} :
    x ∈ applyTags tags e ↔ (x ∈ tags ∨ x ∈ e.add_tags) ∧ x ∉ e.remove_tags := by
  simp only [applyTags, List.mem_filter, List.mem_append, decide_eq_true_eq]
  tauto

lemma applyTags_idem (tags : List (List Char)) (e : OverrideEntry) :
    applyTags (applyTags tags e) e = applyTags tags e := by
  have h1 : ∀ x ∈ applyTags tags e, x ∉ e.remove_tags :=
    fun x hx => (mem_applyTags.mp hx).2
  show (applyTags tags e ++
      e.add_tags.filter fun t => decide (t ∉ applyTags tags e)).filter
      (fun t => decide (t ∉ e.remove_tags)) = applyTags tags e
  rw [List.filter_append]
  have hA : (applyTags tags e).filter (fun t => decide (t ∉ e.remove_tags)) =
      applyTags tags e :=
    List.filter_eq_self.mpr fun a ha => by simpa using h1 a ha
  have hB : (e.add_tags.filter fun t => decide (t ∉ applyTags tags e)).filter
      (fun t => decide (t ∉ e.remove_tags)) = [] := by
    rw [List.filter_eq_nil_iff]
    intro a ha
    obtain ⟨hadd, hnot1⟩ := List.mem_filter.mp ha
    simp only [decide_eq_true_eq] at hnot1 ⊢
    intro hnr
    exact hnot1 (mem_applyTags.mpr ⟨Or.inr hadd, hnr⟩)
  rw [hA, hB, List.append_nil]

lemma filterMap_fixpoint {α : Type} (f : α → Option α)
    (hf : ∀ a b, f a = some b → f b = some b) (l : List α) :
    (l.filterMap f).filterMap f = l.filterMap f := by
  induction l with
  | nil => rfl
  | cons a l ih =>
    cases ha : f a with
    | none => simp only [List.filterMap_cons, ha]; exact ih
    | some b =>
      simp only [List.filterMap_cons, ha, hf a b ha]
      rw [ih]

/-- The per-work transformation inside `applyOverrides`. -/
def overrideStep (patch : List (List Char × OverrideEntry)) (w : Paper) : Option Paper :=
  match lookupPatch patch w.id with
  | none => some w
  | some e =>
    if e.hidden then none
    else some { w with tags := some (applyTags (w.tags.getD []) e) }

lemma applyOverrides_eq_filterMap (patch : List (List Char × OverrideEntry))
    (works : List Paper) :
    applyOverrides patch works = works.filterMap (overrideStep patch) := rfl

lemma overrideStep_fix (patch : List (List Char × OverrideEntry)) :
    ∀ w w', overrideStep patch w = some w' → overrideStep patch w' = some w' := by
  intro w w' h
  obtain ⟨wid, wtitle, wpy, whv, wcbc, wau, wtg⟩ := w
  cases hl : lookupPatch patch wid with
  | none =>
    simp only [overrideStep, hl, Option.some.injEq] at h
    subst h
    simp [overrideStep, hl]
  | some e =>
    simp only [overrideStep, hl] at h
    split at h
    · cases h
    · rename_i hhid
      simp only [Option.some.injEq] at h
      subst h
      simp only [overrideStep, hl]
      rw [if_neg hhid]
      simp only [Option.some.injEq, Option.getD_some]
      rw [applyTags_idem]

lemma applyOverrides_idem (patch : List (List Char × OverrideEntry)) (works : List Paper) :
    applyOverrides patch (applyOverrides patch works) = applyOverrides patch works := by
  simp only [applyOverrides_eq_filterMap]
  exact filterMap_fixpoint _ (overrideStep_fix patch) works

lemma applyOverrides_not_hidden (patch : List (List Char × OverrideEntry))
    (works : List Paper) :
    ∀ w ∈ applyOverrides patch works, isHiddenB patch w.id = false := by
  intro w hw
  rw [applyOverrides_eq_filterMap, List.mem_filterMap] at hw
  obtain ⟨w0, _, hf⟩ := hw
  obtain ⟨wid, wtitle, wpy, whv, wcbc, wau, wtg⟩ := w0
  cases hl : lookupPatch patch wid with
  | none =>
    simp only [overrideStep, hl, Option.some.injEq] at hf
    subst hf
    simp [isHiddenB, hl]
  | some e =>
    simp only [overrideStep, hl] at hf
    split at hf
    · cases hf
    · rename_i hhid
      simp only [Option.some.injEq] at hf
      subst hf
      simp only [isHiddenB, hl]
      simpa using hhid

lemma applyOverrides_filter_hidden (patch : List (List Char × OverrideEntry))
    (works : List Paper) :
    applyOverrides patch works =
      applyOverrides patch (works.filter fun w => !isHiddenB patch w.id) := by
  rw [applyOverrides_eq_filterMap, applyOverrides_eq_filterMap]
  induction works with
  | nil => rfl
  | cons w ws ih =>
    rw [List.filter_cons]
    cases hh : isHiddenB patch w.id with
    | false =>
      simp only [Bool.not_false, if_pos]
      rw [List.filterMap_cons, List.filterMap_cons, ih]
    | true =>
      simp only [Bool.not_true, Bool.false_eq_true, if_false]
      rw [List.filterMap_cons, ih]
      have hstep : overrideStep patch w = none := by
        cases hl : lookupPatch patch w.id with
        | none => simp only [isHiddenB, hl] at hh; cases hh
        | some e =>
          simp only [isHiddenB, hl] at hh
          simp only [overrideStep, hl]
          rw [if_pos hh]
      rw [hstep]

/-! Lemmas about the institution-year map. -/

lemma lookupYears_addYear_self (m : List (List Char × List Nat)) (i : List Char) (y : Nat) :
    lookupYears (addYear m i y) i =
      some (match lookupYears m i with
            | none => [y]
            | some ys => if y ∈ ys then ys else ys ++ [y]) := by
  induction m with
  | nil => simp [addYear, lookupYears]
  | cons kv rest ih =>
    obtain ⟨k, ys⟩ := kv
    by_cases hk : k = i
    · subst hk
      simp [addYear, lookupYears]
    · simp only [addYear, if_neg hk, lookupYears, ih]

lemma lookupYears_addYear_other {m : List (List Char × List Nat)} {i k : List Char}
    (hk : k ≠ i) (y : Nat) :
    lookupYears (addYear m i y) k = lookupYears m k := by
  induction m with
  | nil =>
    simp only [addYear, lookupYears]
    rw [if_neg fun h => hk h.symm]
  | cons kv rest ih =>
    obtain ⟨k0, ys⟩ := kv
    by_cases h0 : k0 = i
    · subst h0
      have hne : ¬(k0 = k) := fun h => hk h.symm
      simp [addYear, lookupYears, hne]
    · by_cases h1 : k0 = k
      · subst h1
        simp [addYear, lookupYears, h0]
      · simp [addYear, lookupYears, h0, h1, ih]

lemma yearMem_addYear {m : List (List Char × List Nat)} {i k : List Char} {y y' : Nat} :
    yearMem (addYear m i y) k y' ↔ yearMem m k y' ∨ (k = i ∧ y' = y) := by
  by_cases hk : k = i
  · subst hk
    constructor
    · intro hmem
      obtain ⟨ys', hys', hy'⟩ := hmem
      rw [lookupYears_addYear_self] at hys'
      simp only [Option.some.injEq] at hys'
      subst hys'
      cases hl : lookupYears m k with
      | none =>
        simp only [hl, List.mem_singleton] at hy'
        exact Or.inr ⟨rfl, hy'⟩
      | some ys =>
        simp only [hl] at hy'
        split at hy'
        · exact Or.inl ⟨ys, hl, hy'⟩
        · rcases List.mem_append.mp hy' with h | h
          · exact Or.inl ⟨ys, hl, h⟩
          · simp only [List.mem_singleton] at h
            exact Or.inr ⟨rfl, h⟩
    · intro hmem
      cases hl : lookupYears m k with
      | none =>
        rcases hmem with ⟨ys0, hys0, _⟩ | ⟨_, rfl⟩
        · rw [hl] at hys0
          cases hys0
        · exact ⟨[y'], by simp [lookupYears_addYear_self, hl], by simp⟩
      | some ys =>
        refine ⟨if y ∈ ys then ys else ys ++ [y], ?_, ?_⟩
        · simp [lookupYears_addYear_self, hl]
        · rcases hmem with ⟨ys0, hys0, hy0⟩ | ⟨_, rfl⟩
          · rw [hl] at hys0
            simp only [Option.some.injEq] at hys0
            subst hys0
            split
            · exact hy0
            · exact List.mem_append.mpr (Or.inl hy0)
          · split
            · rename_i hyy
              exact hyy
            · exact List.mem_append.mpr (Or.inr (by simp))
  · simp only [yearMem, lookupYears_addYear_other hk, hk, false_and, or_false]

lemma yearMem_addInstYears {insts : List (List Char)} {m : List (List Char × List Nat)}
    {k : List Char} {y y' : Nat} :
    yearMem (addInstYears m insts y) k y' ↔ yearMem m k y' ∨ (k ∈ insts ∧ y' = y) := by
  induction insts generalizing m with
  | nil => simp [addInstYears]
  | cons i rest ih =>
    have he : addInstYears m (i :: rest) y = addInstYears (addYear m i y) rest y := rfl
    rw [he, ih, yearMem_addYear]
    simp only [List.mem_cons, or_and_right]
    tauto

lemma yearMem_foldAuth {auths : List Authorship} {a : List Char} {y : Nat}
    {m : List (List Char × List Nat)} {k : List Char} {y' : Nat} :
    yearMem (auths.foldl (processAuthorship a y) m) k y' ↔
      yearMem m k y' ∨
        ((∃ au ∈ auths, au.name = a ∧ ∃ insts, au.institutions = some insts ∧ k ∈ insts) ∧
          y' = y) := by
  induction auths generalizing m with
  | nil => simp
  | cons au rest ih =>
    simp only [List.foldl_cons]
    rw [ih]
    by_cases hname : au.name = a
    · cases hinst : au.institutions with
      | some insts =>
        have he : processAuthorship a y m au = addInstYears m insts y := by
          simp [processAuthorship, hname, hinst]
        rw [he, yearMem_addInstYears]
        simp only [List.exists_mem_cons_iff, hname, hinst, Option.some.injEq, true_and]
        constructor
        · rintro ((h | ⟨hk, rfl⟩) | ⟨h, rfl⟩)
          · exact Or.inl h
          · exact Or.inr ⟨Or.inl ⟨insts, rfl, hk⟩, rfl⟩
          · exact Or.inr ⟨Or.inr h, rfl⟩
        · rintro (h | ⟨(⟨insts0, hi0, hk⟩ | h), rfl⟩)
          · exact Or.inl (Or.inl h)
          · cases hi0
            exact Or.inl (Or.inr ⟨hk, rfl⟩)
          · exact Or.inr ⟨h, rfl⟩
      | none =>
        have he : processAuthorship a y m au = m := by
          simp [processAuthorship, hname, hinst]
        rw [he]
        simp only [List.exists_mem_cons_iff, hname, hinst, true_and]
        constructor
        · rintro (h | ⟨h, rfl⟩)
          · exact Or.inl h
          · exact Or.inr ⟨Or.inr h, rfl⟩
        · rintro (h | ⟨(⟨insts0, hi0, _⟩ | h), rfl⟩)
          · exact Or.inl h
          · cases hi0
          · exact Or.inr ⟨h, rfl⟩
    · have he : processAuthorship a y m au = m := by
        simp [processAuthorship, hname]
      rw [he]
      simp only [List.exists_mem_cons_iff, hname, false_and, false_or]

lemma yearMem_processPaper {a : List Char} {m : List (List Char × List Nat)} {p : Paper}
    {k : List Char} {y' : Nat} :
    yearMem (processPaper a m p) k y' ↔ yearMem m k y' ∨ coOcc a p k y' := by
  cases hp : p.publication_year with
  | none => simp [processPaper, coOcc, hp]
  | some y =>
    simp only [processPaper, hp]
    by_cases hy : y = 0
    · subst hy
      rw [if_pos rfl]
      simp only [coOcc, hp, Option.some.injEq]
      constructor
      · exact Or.inl
      · rintro (h | ⟨heq, hne, _⟩)
        · exact h
        · exact absurd heq.symm hne
    · rw [if_neg hy]
      rw [yearMem_foldAuth]
      simp only [coOcc, hp, Option.some.injEq]
      constructor
      · rintro (h | ⟨hP, rfl⟩)
        · exact Or.inl h
        · exact Or.inr ⟨rfl, hy, hP⟩
      · rintro (h | ⟨heq, _, hP⟩)
        · exact Or.inl h
        · subst heq
          exact Or.inr ⟨hP, rfl⟩

lemma yearMem_foldPapers {papers : List Paper} {a : List Char}
    {m : List (List Char × List Nat)} {k : List Char} {y : Nat} :
    yearMem (papers.foldl (processPaper a) m) k y ↔
      yearMem m k y ∨ ∃ p ∈ papers, coOcc a p k y := by
  induction papers generalizing m with
  | nil => simp
  | cons p rest ih =>
    simp only [List.foldl_cons]
    rw [ih, yearMem_processPaper]
    simp only [List.exists_mem_cons_iff]
    tauto

lemma yearMem_collect {a : List Char} {papers : List Paper} {k : List Char} {y : Nat} :
    yearMem (collectInstYears a papers) k y ↔ coYear a papers k y := by
  unfold collectInstYears coYear
  rw [yearMem_foldPapers]
  simp [yearMem, lookupYears]

lemma foldl_inv {α β : Type} (P : β → Prop) (f : β → α → β)
    (hf : ∀ b a, P b → P (f b a)) : ∀ (l : List α) (b : β), P b → P (l.foldl f b) := by
  intro l
  induction l with
  | nil => intro b hb; exact hb
  | cons a rest ih => intro b hb; exact ih _ (hf b a hb)

lemma goodMap_addYear {m : List (List Char × List Nat)} (h : goodMap m)
    (i : List Char) (y : Nat) : goodMap (addYear m i y) := by
  intro k ys hk
  by_cases hki : k = i
  · subst hki
    rw [lookupYears_addYear_self] at hk
    cases hl : lookupYears m k with
    | none =>
      simp only [hl, Option.some.injEq] at hk
      subst hk
      simp
    | some ys0 =>
      simp only [hl, Option.some.injEq] at hk
      subst hk
      obtain ⟨hne, hnd⟩ := h k ys0 hl
      split
      · exact ⟨hne, hnd⟩
      · rename_i hy
        refine ⟨by simp, ?_⟩
        simp [List.nodup_append, hnd, hy]
  · rw [lookupYears_addYear_other hki] at hk
    exact h k ys hk

lemma goodMap_processPaper {m : List (List Char × List Nat)} (h : goodMap m)
    (a : List Char) (p : Paper) : goodMap (processPaper a m p) := by
  cases hp : p.publication_year with
  | none => simpa [processPaper, hp] using h
  | some y =>
    simp only [processPaper, hp]
    split
    · exact h
    · refine foldl_inv goodMap _ ?_ _ m h
      intro m0 au h0
      unfold processAuthorship
      split
      · split
        · exact foldl_inv goodMap _ (fun m1 i h1 => goodMap_addYear h1 i y) _ m0 h0
        · exact h0
      · exact h0

lemma goodMap_collect (a : List Char) (papers : List Paper) :
    goodMap (collectInstYears a papers) := by
  refine foldl_inv goodMap _ (fun m p hm => goodMap_processPaper hm a p) papers [] ?_
  intro i ys h
  cases h

lemma keysOf_cons (k : List Char) (ys : List Nat) (rest : List (List Char × List Nat)) :
    keysOf ((k, ys) :: rest) = k :: keysOf rest := rfl

lemma lookupYears_none_iff {m : List (List Char × List Nat)} {i : List Char} :
    lookupYears m i = none ↔ i ∉ keysOf m := by
  induction m with
  | nil => simp [lookupYears, keysOf]
  | cons kv rest ih =>
    obtain ⟨k, ys⟩ := kv
    rw [keysOf_cons]
    by_cases hk : k = i
    · subst hk
      simp [lookupYears]
    · have hik : ¬i = k := fun h => hk h.symm
      simp only [lookupYears, if_neg hk, List.mem_cons, ih]
      constructor
      · intro h hor
        rcases hor with he | hm
        · exact hik he
        · exact h hm
      · intro h hm
        exact h (Or.inr hm)

lemma keys_addYear (m : List (List Char × List Nat)) (i : List Char) (y : Nat) :
    keysOf (addYear m i y) =
      if (lookupYears m i).isSome then keysOf m else keysOf m ++ [i] := by
  induction m with
  | nil => simp [addYear, keysOf, lookupYears]
  | cons kv rest ih =>
    obtain ⟨k, ys⟩ := kv
    by_cases hk : k = i
    · subst hk
      simp [addYear, keysOf, lookupYears]
    · simp only [addYear, if_neg hk]
      rw [keysOf_cons, keysOf_cons, ih]
      simp only [lookupYears, if_neg hk]
      split
      · rfl
      · rw [List.cons_append]

lemma keysNodup_addYear {m : List (List Char × List Nat)} (h : (keysOf m).Nodup)
    (i : List Char) (y : Nat) : (keysOf (addYear m i y)).Nodup := by
  rw [keys_addYear]
  split
  · exact h
  · rename_i hs
    have hni : i ∉ keysOf m :=
      lookupYears_none_iff.mp (Option.not_isSome_iff_eq_none.mp hs)
    simp [List.nodup_append, h, hni]

lemma keysNodup_processPaper {m : List (List Char × List Nat)} (h : (keysOf m).Nodup)
    (a : List Char) (p : Paper) : (keysOf (processPaper a m p)).Nodup := by
  cases hp : p.publication_year with
  | none => simpa [processPaper, hp] using h
  | some y =>
    simp only [processPaper, hp]
    split
    · exact h
    · refine foldl_inv (fun m0 => (keysOf m0).Nodup) _ ?_ _ m h
      intro m0 au h0
      unfold processAuthorship
      split
      · split
        · exact foldl_inv (fun m1 => (keysOf m1).Nodup) _
            (fun m1 i h1 => keysNodup_addYear h1 i y) _ m0 h0
        · exact h0
      · exact h0

lemma keysNodup_collect (a : List Char) (papers : List Paper) :
    (keysOf (collectInstYears a papers)).Nodup := by
  refine foldl_inv (fun m => (keysOf m).Nodup) _
    (fun m p hm => keysNodup_processPaper hm a p) papers [] ?_
  simp [keysOf]

lemma lookup_of_mem {m : List (List Char × List Nat)} (hnd : (keysOf m).Nodup)
    {i : List Char} {ys : List Nat} (h : (i, ys) ∈ m) : lookupYears m i = some ys := by
  induction m with
  | nil => cases h
  | cons kv rest ih =>
    obtain ⟨k, ys0⟩ := kv
    rcases List.mem_cons.mp h with he | hm
    · injection he with h1 h2
      subst h1
      subst h2
      simp [lookupYears]
    · have hk : ¬(k = i) := by
        intro hki
        subst hki
        simp only [keysOf, List.map_cons, List.nodup_cons] at hnd
        exact hnd.1 (List.mem_map_of_mem Prod.fst hm)
      simp only [lookupYears, if_neg hk]
      refine ih ?_ hm
      simp only [keysOf, List.map_cons, List.nodup_cons] at hnd
      exact hnd.2

lemma mem_of_lookup {m : List (List Char × List Nat)} {i : List Char} {ys : List Nat}
    (h : lookupYears m i = some ys) : (i, ys) ∈ m := by
  induction m with
  | nil => cases h
  | cons kv rest ih =>
    obtain ⟨k, ys0⟩ := kv
    by_cases hk : k = i
    · subst hk
      have he : lookupYears ((k, ys0) :: rest) k = some ys0 := by simp [lookupYears]
      rw [he] at h
      injection h with h2
      subst h2
      exact List.mem_cons_self _ _
    · simp only [lookupYears, if_neg hk] at h
      exact List.mem_cons_of_mem _ (ih h)

/-! Minimum, maximum and the sorted year array. -/

lemma foldlMin_mem : ∀ (t : List Nat) (h : Nat), t.foldl Nat.min h ∈ h :: t := by
  intro t
  induction t with
  | nil =>
    intro h
    simp [List.foldl]
  | cons x t' ih =>
    intro h
    simp only [List.foldl_cons]
    rcases List.mem_cons.mp (ih (Nat.min h x)) with he | hm
    · rw [he]
      by_cases hhx : h ≤ x
      · have hmeq : Nat.min h x = h := Nat.min_eq_left hhx
        rw [hmeq]
        exact List.mem_cons_self _ _
      · have hmeq : Nat.min h x = x := Nat.min_eq_right (by omega)
        rw [hmeq]
        exact List.mem_cons_of_mem _ (List.mem_cons_self _ _)
    · exact List.mem_cons_of_mem _ (List.mem_cons_of_mem _ hm)

lemma foldlMin_le : ∀ (t : List Nat) (h y : Nat), y ∈ h :: t → t.foldl Nat.min h ≤ y := by
  intro t
  induction t with
  | nil =>
    intro h y hy
    simp only [List.mem_singleton] at hy
    subst hy
    simp [List.foldl]
  | cons x t' ih =>
    intro h y hy
    simp only [List.foldl_cons]
    have hself := ih (Nat.min h x) (Nat.min h x) (List.mem_cons_self _ _)
    have hmin_h : Nat.min h x ≤ h := Nat.min_le_left _ _
    have hmin_x : Nat.min h x ≤ x := Nat.min_le_right _ _
    rcases List.mem_cons.mp hy with he | hy'
    · subst he
      omega
    · rcases List.mem_cons.mp hy' with he2 | hy''
      · subst he2
        omega
      · exact ih (Nat.min h x) y (List.mem_cons_of_mem _ hy'')

lemma foldlMax_mem : ∀ (t : List Nat) (h : Nat), t.foldl Nat.max h ∈ h :: t := by
  intro t
  induction t with
  | nil =>
    intro h
    simp [List.foldl]
  | cons x t' ih =>
    intro h
    simp only [List.foldl_cons]
    rcases List.mem_cons.mp (ih (Nat.max h x)) with he | hm
    · rw [he]
      by_cases hhx : h ≤ x
      · have hmeq : Nat.max h x = x := Nat.max_eq_right hhx
        rw [hmeq]
        exact List.mem_cons_of_mem _ (List.mem_cons_self _ _)
      · have hmeq : Nat.max h x = h := Nat.max_eq_left (by omega)
        rw [hmeq]
        exact List.mem_cons_self _ _
    · exact List.mem_cons_of_mem _ (List.mem_cons_of_mem _ hm)

lemma foldlMax_ge : ∀ (t : List Nat) (h y : Nat), y ∈ h :: t → y ≤ t.foldl Nat.max h := by
  intro t
  induction t with
  | nil =>
    intro h y hy
    simp only [List.mem_singleton] at hy
    subst hy
    simp [List.foldl]
  | cons x t' ih =>
    intro h y hy
    simp only [List.foldl_cons]
    have hself := ih (Nat.max h x) (Nat.max h x) (List.mem_cons_self _ _)
    have hmax_h : h ≤ Nat.max h x := Nat.le_max_left _ _
    have hmax_x : x ≤ Nat.max h x := Nat.le_max_right _ _
    rcases List.mem_cons.mp hy with he | hy'
    · subst he
      omega
    · rcases List.mem_cons.mp hy' with he2 | hy''
      · subst he2
        omega
      · exact ih (Nat.max h x) y (List.mem_cons_of_mem _ hy'')

lemma listMin_mem {l : List Nat} (h : l ≠ []) : listMin l ∈ l := by
  cases l with
  | nil => exact absurd rfl h
  | cons x t => exact foldlMin_mem t x

lemma listMin_le {l : List Nat} {y : Nat} (hy : y ∈ l) : listMin l ≤ y := by
  cases l with
  | nil => cases hy
  | cons x t => exact foldlMin_le t x y hy

lemma listMax_mem {l : List Nat} (h : l ≠ []) : listMax l ∈ l := by
  cases l with
  | nil => exact absurd rfl h
  | cons x t => exact foldlMax_mem t x

lemma listMax_ge {l : List Nat} {y : Nat} (hy : y ∈ l) : y ≤ listMax l := by
  cases l with
  | nil => cases hy
  | cons x t => exact foldlMax_ge t x y hy

lemma jsSortNums_mem {l : List Nat} {y : Nat} : y ∈ jsSortNums l ↔ y ∈ l :=
  (List.perm_insertionSort _ _).mem_iff

lemma jsSortNums_perm (l : List Nat) : (jsSortNums l).Perm l :=
  List.perm_insertionSort _ _

lemma jsSortNums_nodup {l : List Nat} (h : l.Nodup) : (jsSortNums l).Nodup :=
  ((jsSortNums_perm l).nodup_iff).mpr h

lemma jsSortNums_ne_nil {l : List Nat} (h : l ≠ []) : jsSortNums l ≠ [] := by
  intro he
  exact h (List.Perm.eq_nil ((jsSortNums_perm l).symm.trans (he ▸ List.Perm.refl _)))

/-! The fallback branch of `getAuthorInstitutionsWithYears`. -/

lemma getAuthorInstYears_fallback (a : List Char) (papers : List Paper)
    (stats : FrontStats) (h : usesFallback stats a = true) :
    getAuthorInstitutionsWithYears a papers stats =
      (collectInstYears a papers).map renderEntry := by
  cases hta : stats.top_authors with
  | none => simp [getAuthorInstitutionsWithYears, hta]
  | some l =>
    simp only [usesFallback, hta] at h
    simp only [getAuthorInstitutionsWithYears, hta]
    cases hf : l.find? fun (x : TopAuthor) => x.name == a with
    | none => simp
    | some ta =>
      simp only [hf] at h
      simp only []
      cases hiy : ta.institution_years with
      | none => simp
      | some iy => simp [hiy] at h

lemma renderEntry_name (pr : List Char × List Nat) : (renderEntry pr).name = pr.1 := rfl

lemma collectResult_names (a : List Char) (papers : List Paper) (inst : List Char) :
    (∃ e ∈ (collectInstYears a papers).map renderEntry, e.name = inst) ↔
      ∃ y, coYear a papers inst y := by
  constructor
  · rintro ⟨e, he, hname⟩
    obtain ⟨pr, hpr, hre⟩ := List.mem_map.mp he
    obtain ⟨i, ys⟩ := pr
    have hl : lookupYears (collectInstYears a papers) i = some ys :=
      lookup_of_mem (keysNodup_collect a papers) hpr
    obtain ⟨hne, _⟩ := goodMap_collect a papers i ys hl
    obtain ⟨y, hy⟩ := List.exists_mem_of_ne_nil ys hne
    have hi : i = inst := by rw [← hname, ← hre, renderEntry_name]
    subst hi
    refine ⟨y, ?_⟩
    rw [← yearMem_collect]
    exact ⟨ys, hl, hy⟩
  · rintro ⟨y, hy⟩
    rw [← yearMem_collect] at hy
    obtain ⟨ys, hl, hmem⟩ := hy
    exact ⟨renderEntry (inst, ys), List.mem_map_of_mem _ (mem_of_lookup hl), rfl⟩

lemma collectResult_names_nodup (a : List Char) (papers : List Paper) :
    (((collectInstYears a papers).map renderEntry).map InstEntry.name).Nodup := by
  have he : ((collectInstYears a papers).map renderEntry).map InstEntry.name =
      keysOf (collectInstYears a papers) := by
    rw [List.map_map]
    rfl
  rw [he]
  exact keysNodup_collect a papers

lemma collectResult_entry (a : List Char) (papers : List Paper) {e : InstEntry}
    (he : e ∈ (collectInstYears a papers).map renderEntry) :
    (∀ y, y ∈ e.years ↔ coYear a papers e.name y) ∧ e.years.Nodup ∧
      ∃ mn mx, mn ∈ e.years ∧ mx ∈ e.years ∧ (∀ y ∈ e.years, mn ≤ y ∧ y ≤ mx) ∧
        e.yearRange = (Nat.repr mn).data ++ '-' :: (Nat.repr mx).data := by
  obtain ⟨pr, hpr, hre⟩ := List.mem_map.mp he
  obtain ⟨i, ys⟩ := pr
  subst hre
  have hl : lookupYears (collectInstYears a papers) i = some ys :=
    lookup_of_mem (keysNodup_collect a papers) hpr
  obtain ⟨hne, hnd⟩ := goodMap_collect a papers i ys hl
  have hyears : (renderEntry (i, ys)).years = jsSortNums ys := rfl
  have hname : (renderEntry (i, ys)).name = i := rfl
  refine ⟨?_, ?_, ?_⟩
  · intro y
    rw [hyears, hname, jsSortNums_mem, ← yearMem_collect]
    constructor
    · intro hy
      exact ⟨ys, hl, hy⟩
    · rintro ⟨ys0, hl0, hy0⟩
      rw [hl] at hl0
      injection hl0 with h2
      subst h2
      exact hy0
  · rw [hyears]
    exact jsSortNums_nodup hnd
  · have hne' : jsSortNums ys ≠ [] := jsSortNums_ne_nil hne
    refine ⟨listMin (jsSortNums ys), listMax (jsSortNums ys), ?_, ?_, ?_, rfl⟩
    · rw [hyears]
      exact listMin_mem hne'
    · rw [hyears]
      exact listMax_mem hne'
    · intro y hy
      rw [hyears] at hy
      exact ⟨listMin_le hy, listMax_ge hy⟩

/-! ## Claim theorems -/

/-- Claim C1: for every venue name string, the normalized display name
produced by `normalizeVenueName` contains no run of four consecutive decimal
digits (hence no embedded four-digit publication year and no year range),
every run of consecutive whitespace is collapsed to a single space (no two
adjacent whitespace characters remain and every remaining whitespace
character is the plain space), and there is no leading or trailing
whitespace. -/
theorem claim_C1 (s : List Char) :
    hasRun4 (normalizeVenueName s).1 = false ∧
    noAdjWS (normalizeVenueName s).1 = true ∧
    allWSSpace (normalizeVenueName s).1 = true ∧
    headNotWS (normalizeVenueName s).1 = true ∧
    lastNotWS (normalizeVenueName s).1 = true :=
  normalizeVenue_props s

/-- Claim C2 counterexample: for the venue name `"(AB)"` no entry of the
prioritized abbreviation table matches (the spec-stated resolution yields
`none`), yet `extractAbbreviation` resolves the abbreviation `"AB"`, because
the code first applies the parenthesized-uppercase-abbreviation rule that the
claim omits. -/
theorem claim_C2_counterexample :
    extractAbbreviation "(AB)".data = some "AB".data ∧
    specTableResolve "(AB)".data = none := by
  exact ⟨rfl, rfl⟩

/-- Claim C2 (amended): the abbreviation resolved for display grouping is the
first parenthesized run of two or more uppercase letters when one exists;
only otherwise is it the abbreviation of the earliest table entry whose
pattern matches the venue name, and `none` when no entry matches. -/
theorem claim_C2_amended (v : List Char) :
    extractAbbreviation v =
      match parenMatch v with
      | some x => some x
      | none => specTableResolve v := by
  unfold extractAbbreviation
  cases parenMatch v with
  | some x => rfl
  | none => exact tableScan_eq_find abbrevTable v

/-- Claim C3: when the stats file provides no usable entry for the author,
the computed institution-year spans have exactly one entry per institution
co-occurring with the author in some truthy publication year; each entry's
explicit year set consists precisely of the distinct publication years in
which that institution co-occurs with the author (duplicate-free), and its
year-range string is `min-max` over exactly those years. -/
theorem claim_C3 (a : List Char) (papers : List Paper) (stats : FrontStats)
    (h : usesFallback stats a = true) :
    (∀ inst, (∃ e ∈ getAuthorInstitutionsWithYears a papers stats, e.name = inst) ↔
        ∃ y, coYear a papers inst y) ∧
    ((getAuthorInstitutionsWithYears a papers stats).map InstEntry.name).Nodup ∧
    ∀ e ∈ getAuthorInstitutionsWithYears a papers stats,
      (∀ y, y ∈ e.years ↔ coYear a papers e.name y) ∧ e.years.Nodup ∧
        ∃ mn mx, mn ∈ e.years ∧ mx ∈ e.years ∧ (∀ y ∈ e.years, mn ≤ y ∧ y ≤ mx) ∧
          e.yearRange = (Nat.repr mn).data ++ '-' :: (Nat.repr mx).data := by
  rw [getAuthorInstYears_fallback a papers stats h]
  exact ⟨fun inst => collectResult_names a papers inst,
    collectResult_names_nodup a papers, fun e he => collectResult_entry a papers he⟩

/-- Witness for C3 at a concrete author, paper list and stats file. -/
theorem claim_C3_witness :
    ∃ e ∈ getAuthorInstitutionsWithYears "A".data [wPaper3] ⟨none⟩,
      e.name = "MIT".data :=
  ((claim_C3 "A".data [wPaper3] ⟨none⟩ rfl).1 "MIT".data).mpr
    ⟨2020, wPaper3, List.mem_cons_self _ _, rfl, by decide,
      ⟨"A".data, some ["MIT".data]⟩, List.mem_cons_self _ _, rfl,
      ["MIT".data], rfl, List.mem_cons_self _ _⟩

/-- Claim C4: wherever the venue is used for grouping or filtering, an empty
or missing `host_venue` maps to the sentinel `"Unknown"`: the defaulted venue
equals `"Unknown"`, that is the value such a paper contributes to the venue
set `allVenues`, and the venue filter of `filterPapers` tests membership of
`"Unknown"` in the selected `|`-separated groups. -/
theorem claim_C4 (w : Paper) (papers : List Paper) (sv : List (List Char))
    (h : w.host_venue = none ∨ w.host_venue = some []) :
    venueOf w = "Unknown".data ∧
    (w ∈ papers → "Unknown".data ∈ allVenues papers) ∧
    okVenueB sv w =
      (sv.isEmpty || sv.any fun g => (splitPipe g).contains "Unknown".data) := by
  have hv := venueOf_default h
  refine ⟨hv, ?_, ?_⟩
  · intro hw
    have hm := venueOf_mem_allVenues hw
    rwa [hv] at hm
  · rw [okVenueB, hv]

/-- Witness for C4 at a concrete paper with a missing venue. -/
theorem claim_C4_witness :
    venueOf wPaperNoVenue = "Unknown".data ∧
    (wPaperNoVenue ∈ [wPaperNoVenue] → "Unknown".data ∈ allVenues [wPaperNoVenue]) ∧
    okVenueB ["VLDB|Unknown".data] wPaperNoVenue =
      (["VLDB|Unknown".data].isEmpty ||
        ["VLDB|Unknown".data].any fun g => (splitPipe g).contains "Unknown".data) :=
  claim_C4 wPaperNoVenue [wPaperNoVenue] ["VLDB|Unknown".data] (Or.inl rfl)

/-- Claim C5: a missing `cited_by_count` is treated as 0 wherever it is
consumed: the sort key used for citation ordering is 0 (so every paper
compares at least as high), and the rendered citation-count text is that of
an explicit 0. -/
theorem claim_C5 (w : Paper) (h : w.cited_by_count = none) :
    citedKey w = 0 ∧
    renderCardCitation w = "被引用数: 0".data ∧
    (∀ w', byCitedDesc w' w) := by
  refine ⟨?_, ?_, ?_⟩
  · simp [citedKey, h]
  · simp only [renderCardCitation, h, Option.getD_none]
    decide
  · intro w'
    show citedKey w ≤ citedKey w'
    simp [citedKey, h]

/-- Witness for C5 at a concrete paper with a missing citation count. -/
theorem claim_C5_witness :
    citedKey wPaper3 = 0 ∧
    renderCardCitation wPaper3 = "被引用数: 0".data ∧
    (∀ w', byCitedDesc w' wPaper3) :=
  claim_C5 wPaper3 rfl

/-- Claim C6 (modelled from the spec): works marked hidden in the override
patch never appear in the merged collection; the merged collection is
unchanged when hidden works are removed from the input, and consequently the
histograms and scalar aggregates of the StatsSnapshot receive no contribution
from hidden works. -/
theorem claim_C6 (patch : List (List Char × OverrideEntry)) (works : List Paper) :
    (∀ w ∈ applyOverrides patch works, isHiddenB patch w.id = false) ∧
    applyOverrides patch works =
      applyOverrides patch (works.filter fun w => !isHiddenB patch w.id) ∧
    computeStats (applyOverrides patch works) =
      computeStats (applyOverrides patch (works.filter fun w => !isHiddenB patch w.id)) :=
  ⟨applyOverrides_not_hidden patch works,
   applyOverrides_filter_hidden patch works,
   congrArg computeStats (applyOverrides_filter_hidden patch works)⟩

/-- Witness for C6 at a concrete patch hiding one of two works. -/
theorem claim_C6_witness : isHiddenB patchHideW1 wPaper3.id = false :=
  (claim_C6 patchHideW1 [wPaperA, wPaper3]).1 wPaper3 (by decide)

/-- Claim C7 (modelled from the spec): applying the same override patch twice
yields the same collection, with the same per-work tag sets and the same
hidden works removed, as applying it once. -/
theorem claim_C7 (patch : List (List Char × OverrideEntry)) (works : List Paper) :
    applyOverrides patch (applyOverrides patch works) = applyOverrides patch works :=
  applyOverrides_idem patch works

/-- Claim C8: `filterPapers` returns exactly the input papers that contain
every selected tag, list every selected author among their authorship names,
and whose defaulted venue is a member of at least one selected `|`-separated
venue group; an empty selection imposes no constraint, so with all three
selections empty every input paper is returned. -/
theorem claim_C8 (papers : List Paper) (ts sa sv : List (List Char)) (sb : List Char) :
    (filterPapers papers ts sa sv sb).Perm
      (papers.filter (matchesFilters ts sa sv)) ∧
    (∀ w, w ∈ filterPapers papers ts sa sv sb ↔
      w ∈ papers ∧ (∀ t ∈ ts, t ∈ w.tags.getD []) ∧ (∀ a ∈ sa, a ∈ authorNames w) ∧
        (sv = [] ∨ ∃ g ∈ sv, venueOf w ∈ splitPipe g)) ∧
    (ts = [] → sa = [] → sv = [] → (filterPapers papers ts sa sv sb).Perm papers) := by
  refine ⟨filterPapers_perm papers ts sa sv sb, ?_, ?_⟩
  · intro w
    rw [filterPapers_mem, matchesFilters_iff]
  · intro h1 h2 h3
    subst h1
    subst h2
    subst h3
    have hp := filterPapers_perm papers [] [] [] sb
    rwa [List.filter_eq_self.mpr fun w _ => matchesFilters_empty w] at hp

/-- Witness for C8: with all selections empty the filter returns every
paper. -/
theorem claim_C8_witness :
    (filterPapers [wPaperA, wPaper3] [] [] [] "citations".data).Perm
      [wPaperA, wPaper3] :=
  (claim_C8 [wPaperA, wPaper3] [] [] [] "citations".data).2.2 rfl rfl rfl

/-- Claim C9: the list returned by `filterPapers` is sorted in non-increasing
publication-year order (a missing year reads as 0) when `sortBy` is
`'year'`, and in non-increasing cited-by-count order (a missing count reads
as 0) otherwise. -/
theorem claim_C9 (papers : List Paper) (ts sa sv : List (List Char)) (sb : List Char) :
    (sb = "year".data → (filterPapers papers ts sa sv sb).Sorted byYearDesc) ∧
    (sb ≠ "year".data → (filterPapers papers ts sa sv sb).Sorted byCitedDesc) := by
  constructor
  · intro h
    subst h
    exact filterPapers_sorted_year papers ts sa sv
  · intro h
    exact filterPapers_sorted_cited papers ts sa sv sb h

/-- Witness for C9 at a concrete paper list sorted by year. -/
theorem claim_C9_witness :
    (filterPapers [wPaper3, wPaperA] [] [] [] "year".data).Sorted byYearDesc :=
  (claim_C9 [wPaper3, wPaperA] [] [] [] "year".data).1 rfl

/-- Claim C10: venue-name normalization is idempotent — applying
`normalizeVenueName` to the normalized name it produced returns that
normalized name unchanged. -/
theorem claim_C10 (s : List Char) :
    (normalizeVenueName (normalizeVenueName s).1).1 = (normalizeVenueName s).1 :=
  normalizeVenue_idem s

end LIP
